import Mathlib

/-!
Verification of the moondream realtime detector against its design notes.

This file gives a shallow embedding of the parts of the code that the
checked properties talk about:

* `utils/drawing.py` : the rectangle overlap test `_overlap`, the
  word-wrapping loop and the label placement logic of
  `_draw_wrapped_text` (candidate position, collision resolution,
  footprint bookkeeping, background rectangle, baseline clamping);
* `core/video_processor.py` : the per-frame inference gate and stale
  detection carry (`_process_frame`), the FPS bookkeeping
  (`_calculate_fps`) and the caption-mode labelling of detections;
* `core/detector.py` : the error-suppressing wrappers `detect_objects`
  and `caption_image`.

Pixel coordinates are Python ints, embedded as `Int`; wall-clock times
and normalized box coordinates are embedded as `Rat`; text is embedded
as `List Char` so that Python's `str.split(" ")` and `str.strip()` can
be modelled exactly.  Text measurement (`cv2.getTextSize`) is an
external capability and is taken as a parameter; where a property
needs the measured width to behave like a real font metric, the
additive model `twAdd` (a per-character advance) is used.
-/

/-! ### Geometry: `_overlap` from `utils/drawing.py` -/

/-- An axis-aligned pixel rectangle, the dict
`{x_min, y_min, x_max, y_max}` of `drawing.py`. -/
structure Rect where
  x_min : Int
  y_min : Int
  x_max : Int
  y_max : Int
deriving DecidableEq

/-- `_overlap(rect1, rect2)` from `utils/drawing.py`:
`not (rect1['x_max'] < rect2['x_min'] or rect2['x_max'] < rect1['x_min'] or
rect1['y_max'] < rect2['y_min'] or rect2['y_max'] < rect1['y_min'])`. -/
def _overlap (rect1 rect2 : Rect) : Bool :=
  ! (decide (rect1.x_max < rect2.x_min) || decide (rect2.x_max < rect1.x_min) ||
     decide (rect1.y_max < rect2.y_min) || decide (rect2.y_max < rect1.y_min))

/-- A well-formed rectangle: the min corner is not past the max corner. -/
def Rect.WF (r : Rect) : Prop := r.x_min ≤ r.x_max ∧ r.y_min ≤ r.y_max

instance (r : Rect) : Decidable r.WF := by unfold Rect.WF; infer_instance

theorem _overlap_eq_true_iff (a b : Rect) :
    _overlap a b = true ↔
      ¬(a.x_max < b.x_min ∨ b.x_max < a.x_min ∨ a.y_max < b.y_min ∨ b.y_max < a.y_min) := by
  unfold _overlap
  simp only [Bool.not_eq_true', Bool.or_eq_false_iff, decide_eq_false_iff_not]
  tauto

/-- Claim C6: the rectangle-overlap test `_overlap` is symmetric; it is
reflexive on every well-formed rectangle; two rectangles that share an
edge (`a.x_max = b.x_min` with meeting y-ranges) report `true`; and two
rectangles separated by a positive gap on either axis report `false`. -/
theorem C6_overlap_algebra :
    (∀ a b : Rect, _overlap a b = _overlap b a) ∧
    (∀ r : Rect, r.WF → _overlap r r = true) ∧
    (∀ a b : Rect, a.WF → b.WF →
      a.x_max = b.x_min → ¬(a.y_max < b.y_min) → ¬(b.y_max < a.y_min) →
      _overlap a b = true) ∧
    (∀ a b : Rect,
      (a.x_max < b.x_min ∨ b.x_max < a.x_min ∨ a.y_max < b.y_min ∨ b.y_max < a.y_min) →
      _overlap a b = false) := by
  refine ⟨?_, ?_, ?_, ?_⟩
  · intro a b
    unfold _overlap
    by_cases h1 : a.x_max < b.x_min <;> by_cases h2 : b.x_max < a.x_min <;>
      by_cases h3 : a.y_max < b.y_min <;> by_cases h4 : b.y_max < a.y_min <;>
      simp [h1, h2, h3, h4]
  · intro r hr
    rw [_overlap_eq_true_iff]
    rcases hr with ⟨hx, hy⟩
    omega
  · intro a b ha hb hedge hy1 hy2
    rw [_overlap_eq_true_iff]
    rcases ha with ⟨hax, hay⟩
    rcases hb with ⟨hbx, hby⟩
    omega
  · intro a b h
    have : ¬ (_overlap a b = true) := by
      rw [_overlap_eq_true_iff]; tauto
    simpa using this

theorem C6_overlap_algebra_witness :
    _overlap ⟨0, 0, 10, 10⟩ ⟨0, 0, 10, 10⟩ = true ∧
    _overlap ⟨0, 0, 10, 10⟩ ⟨10, 0, 20, 10⟩ = true ∧
    _overlap ⟨0, 0, 10, 10⟩ ⟨20, 20, 30, 30⟩ = false := by
  refine ⟨?_, ?_, ?_⟩
  · exact C6_overlap_algebra.2.1 ⟨0, 0, 10, 10⟩ (by constructor <;> decide)
  · exact C6_overlap_algebra.2.2.1 ⟨0, 0, 10, 10⟩ ⟨10, 0, 20, 10⟩
      (by constructor <;> decide) (by constructor <;> decide) rfl
      (by decide) (by decide)
  · exact C6_overlap_algebra.2.2.2 ⟨0, 0, 10, 10⟩ ⟨20, 20, 30, 30⟩ (by left; decide)

/-! ### Text model: `str.split(" ")`, `str.strip()` and the wrap loop of
`_draw_wrapped_text` -/

/-- Python `text.split(" ")` on a character list: split on every single
space, keeping empty chunks (so `"a  b"` gives `["a", "", "b"]` and `""`
gives `[""]`). -/
def pySplitSpace : List Char → List (List Char)
  | [] => [[]]
  | c :: cs =>
    if c = ' ' then [] :: pySplitSpace cs
    else
      match pySplitSpace cs with
      | [] => [[c]]
      | w :: ws => (c :: w) :: ws

/-- Python `s.strip()`: drop whitespace from both ends. -/
def pyStrip (l : List Char) : List Char :=
  ((l.dropWhile Char.isWhitespace).reverse.dropWhile Char.isWhitespace).reverse

/-- Join word chunks with single spaces; `joinSp [a, b] = a ++ " " ++ b`.
This is what the wrap loop's `f"{current_line} {word}"` builds up. -/
def joinSp : List (List Char) → List Char
  | [] => []
  | [w] => w
  | w :: ws => w ++ ' ' :: joinSp ws

/-- The nonempty chunks of `text.split(" ")`: the words the wrap loop
can put on lines. -/
def pyWords (l : List Char) : List (List Char) :=
  (pySplitSpace l).filter (fun w => !w.isEmpty)

/-- One iteration of the wrap loop of `_draw_wrapped_text` over state
`(lines, current_line)`:
`test_line = f"{current_line} {word}".strip()`; if
`text_width > wrap_width and current_line` then flush `current_line`
and restart from `word`, else `current_line = test_line`.
`tw` models the width component of `cv2.getTextSize`. -/
def wrapStep (tw : List Char → Nat) (wrapWidth : Int)
    (s : List (List Char) × List Char) (word : List Char) :
    List (List Char) × List Char :=
  let testLine := pyStrip (s.2 ++ ' ' :: word)
  if wrapWidth < (tw testLine : Int) ∧ s.2 ≠ [] then
    (s.1 ++ [s.2], word)
  else
    (s.1, testLine)

/-- The whole wrap phase of `_draw_wrapped_text` (lines 71-88 of
`drawing.py`): fold the loop over `text.split(" ")` and flush the last
`current_line` if nonempty. -/
def wrapText (tw : List Char → Nat) (wrapWidth : Int) (text : List Char) :
    List (List Char) :=
  let s := (pySplitSpace text).foldl (wrapStep tw wrapWidth) ([], [])
  if s.2 ≠ [] then s.1 ++ [s.2] else s.1

/-- The additive text-measurement model: each character has a fixed
advance `cw` and a string measures to the sum of its advances, as the
Hershey fonts behind `cv2.getTextSize` do. -/
def twAdd (cw : Char → Nat) (l : List Char) : Nat := (l.map cw).sum

example : pySplitSpace "a  b".toList = [['a'], [], ['b']] := by decide

example : pySplitSpace [] = [[]] := by decide

example : pyWords "  a bc ".toList = [['a'], ['b', 'c']] := by decide

example : pyStrip " a b ".toList = "a b".toList := by decide

example :
    wrapText (twAdd fun _ => 10) 25 "aa bb cc".toList =
      [['a', 'a'], ['b', 'b'], ['c', 'c']] := by decide

example :
    wrapText (twAdd fun _ => 10) 50 "aa bb cc".toList =
      ["aa bb".toList, ['c', 'c']] := by decide

example :
    wrapText (twAdd fun _ => 10) 300 "aa bb cc".toList =
      ["aa bb cc".toList] := by decide

example :
    wrapText (twAdd fun _ => 10) 25 "aaaaaa b".toList =
      ["aaaaaa".toList, ['b']] := by decide

/-! ### Label placement: `_draw_wrapped_text` lines 97-185 of `drawing.py`

The function is modelled for the calls made by `draw_bounding_boxes`,
which always supplies `used_areas` and `frame_height`, so the
overlap-avoidance block always runs.  `tw`/`th` model the width and
height components of `cv2.getTextSize`; the line spacing is
`settings.TEXT_LINE_SPACING` and is kept as a parameter. -/

/-- Everything `_draw_wrapped_text` computes before drawing: the wrapped
lines, the measured first-line width/height, the final label position
after collision resolution, the footprint appended to `used_areas`, the
resulting `used_areas` list, the clamped background rectangle, and the
clamped per-line text baselines. -/
structure PlaceResult where
  lines : List (List Char)
  lineWidth : Int
  lineHeight : Int
  totalTextHeight : Int
  labelX : Int
  labelYStart : Int
  area : Rect
  usedOut : List Rect
  bg : Rect
  ys : List Int
deriving DecidableEq

/-- Shallow embedding of `_draw_wrapped_text(frame, text, x_min, y_min,
x_max, frame_width, used_areas, frame_height)`.  Returns `none` exactly
when the wrap produces no lines (empty text), in which case the code
returns early and records no footprint. -/
def drawWrappedText (tw th : List Char → Nat) (lineSpacing : Int)
    (text : List Char) (x_min y_min x_max : Int)
    (frame_width frame_height : Int) (used_areas : List Rect) :
    Option PlaceResult :=
  let wrapWidth : Int := max 300 (x_max - x_min)
  match wrapText tw wrapWidth text with
  | [] => none
  | l0 :: rest =>
    let lines := l0 :: rest
    let lineWidth : Int := tw l0
    let lineHeight : Int := th l0
    let totalTextHeight : Int := (lines.length : Int) * (lineHeight + lineSpacing)
    let labelX0 : Int := x_min
    let labelX1 : Int :=
      if frame_width < labelX0 + lineWidth then frame_width - lineWidth else labelX0
    let labelY0 : Int :=
      if 0 < y_min - 10 - totalTextHeight then y_min - 10 else y_min + 10 + lineHeight
    let area0 : Rect :=
      ⟨labelX1 - 15, labelY0 - 5, labelX1 + lineWidth + 15, labelY0 + totalTextHeight + 5⟩
    let ov0 : Bool := used_areas.any (fun a => _overlap area0 a)
    let step2 : Int × Rect × Bool :=
      if ov0 = true ∧ y_min < labelY0 then
        let below : Int := y_min + 10 + lineHeight
        let a1 : Rect := ⟨area0.x_min, below - 5, area0.x_max, below + totalTextHeight + 5⟩
        (below, a1, used_areas.any (fun a => _overlap a1 a))
      else (labelY0, area0, ov0)
    let labelY1 := step2.1
    let area1 := step2.2.1
    let ov1 := step2.2.2
    let step3 : Int × Rect :=
      if ov1 = true then
        let lx : Int := min (frame_width - lineWidth - 15) (x_max + 10)
        (lx, ⟨lx - 15, area1.y_min, lx + lineWidth + 15, area1.y_max⟩)
      else (labelX1, area1)
    let labelX2 := step3.1
    let area2 := step3.2
    let maxWidth : Int := lines.foldl (fun m l => max m (tw l : Int)) 0
    let padding : Int := 15
    let bgY : Int × Int :=
      if y_min < labelY1 then
        (max 0 (y_min + 5), min frame_height (y_min + totalTextHeight + padding))
      else
        (max 0 (y_min - totalTextHeight - padding), min frame_height (y_min - 5))
    let bg : Rect :=
      ⟨max 0 (labelX2 - padding), bgY.1, min frame_width (labelX2 + maxWidth + padding), bgY.2⟩
    let ys : List Int := (List.range lines.length).map (fun (i : Nat) =>
      let yPos : Int :=
        if y_min < labelY1 then
          y_min + (i : Int) * (lineHeight + lineSpacing) + lineHeight + 10
        else
          y_min - totalTextHeight + (i : Int) * (lineHeight + lineSpacing) + lineHeight
      max (lineHeight + 5) (min yPos (frame_height - 5)))
    some ⟨lines, lineWidth, lineHeight, totalTextHeight, labelX2, labelY1, area2,
      used_areas ++ [area2], bg, ys⟩

/-- Claim C1: the code at the failing input.  The anchor box
`(100, 200)-(200, ...)` has room above, so the vertical rule picks the
"above" position `y = 190`; the candidate footprint collides with the
one already-placed footprint; the "below" position `y = 230` would be
collision free; yet the code keeps `y = 190` and shifts right to
`x = 210`, because the retry branch is guarded by
`label_y_start > y_min`, which is false whenever the original choice
was "above". -/
theorem C1_above_collision_skips_below_retry :
    drawWrappedText (fun _ => 50) (fun _ => 20) 5 "ab".toList 100 200 200 1000 1000
        [⟨85, 185, 165, 220⟩] =
      some ⟨[['a', 'b']], 50, 20, 25, 210, 190, ⟨195, 185, 275, 220⟩,
        [⟨85, 185, 165, 220⟩, ⟨195, 185, 275, 220⟩], ⟨195, 160, 275, 195⟩, [195]⟩ ∧
    _overlap ⟨85, 225, 165, 260⟩ ⟨85, 185, 165, 220⟩ = false := by
  constructor
  · decide
  · decide

/-- Claim C3 counterexample: for an anchor at the canvas corner
(`x_min = 0`, `y_min = 0`) on a 640x480 canvas, the footprint recorded
into the placed set has `x_min = -15`, which is negative: the recorded
footprint is not clamped to the canvas. -/
theorem C3_footprint_counterexample :
    (drawWrappedText (fun _ => 50) (fun _ => 20) 5 "ab".toList 0 0 50 640 480 []).map
        (fun r => r.area.x_min) = some (-15) ∧
    ¬ (0 : Int) ≤ -15 := by
  constructor
  · decide
  · decide

/-- Modelled from the spec: "the candidate position ... expanded by a
15px margin on all sides" - the label's text rectangle
`(labelX, labelYStart)-(labelX + lineWidth, labelYStart + totalTextHeight)`
grown by 15 pixels left, right, top and bottom. -/
def specFootprint15 (r : PlaceResult) : Rect :=
  ⟨r.labelX - 15, r.labelYStart - 15, r.labelX + r.lineWidth + 15,
   r.labelYStart + r.totalTextHeight + 15⟩

/-- Claim C5 counterexample: at a concrete collision-free placement the
recorded footprint is not the text rectangle expanded by 15px on all
four sides - vertically the code only adds 5px. -/
theorem C5_margin_counterexample :
    drawWrappedText (fun _ => 50) (fun _ => 20) 5 "ab".toList 100 200 200 1000 1000 [] =
      some ⟨[['a', 'b']], 50, 20, 25, 100, 190, ⟨85, 185, 165, 220⟩,
        [⟨85, 185, 165, 220⟩], ⟨85, 160, 165, 195⟩, [195]⟩ ∧
    (⟨85, 185, 165, 220⟩ : Rect) ≠
      specFootprint15 ⟨[['a', 'b']], 50, 20, 25, 100, 190, ⟨85, 185, 165, 220⟩,
        [⟨85, 185, 165, 220⟩], ⟨85, 160, 165, 195⟩, [195]⟩ := by
  constructor
  · decide
  · decide

/-- Claim C5 (amended): whatever path collision resolution takes, the
footprint recorded into the placed set is the label's text rectangle
expanded by 15px on the left and right but only 5px on the top and
bottom, and it is appended to the existing footprints. -/
theorem C5_amended_footprint (tw th : List Char → Nat) (lineSpacing : Int)
    (text : List Char) (x_min y_min x_max frame_width frame_height : Int)
    (used_areas : List Rect) (r : PlaceResult)
    (h : drawWrappedText tw th lineSpacing text x_min y_min x_max
          frame_width frame_height used_areas = some r) :
    r.area = ⟨r.labelX - 15, r.labelYStart - 5, r.labelX + r.lineWidth + 15,
      r.labelYStart + r.totalTextHeight + 5⟩ ∧
    r.usedOut = used_areas ++ [r.area] := by
  unfold drawWrappedText at h
  dsimp only at h
  cases hw : wrapText tw (max 300 (x_max - x_min)) text with
  | nil => rw [hw] at h; simp at h
  | cons l0 rest =>
    rw [hw] at h
    rw [Option.some.injEq] at h
    subst h
    dsimp only
    split_ifs <;> simp_all

/-- Claim C3 (amended): what the code clamps to the canvas are the drawn
artifacts, not the recorded footprint: the background rectangle's min
corner is never negative and its max corner never exceeds the canvas,
and every drawn baseline is at least `lineHeight + 5` (and at most
`frame_height - 5` whenever that band is nonempty). -/
theorem C3_amended_clamps (tw th : List Char → Nat) (lineSpacing : Int)
    (text : List Char) (x_min y_min x_max frame_width frame_height : Int)
    (used_areas : List Rect) (r : PlaceResult)
    (h : drawWrappedText tw th lineSpacing text x_min y_min x_max
          frame_width frame_height used_areas = some r) :
    0 ≤ r.bg.x_min ∧ 0 ≤ r.bg.y_min ∧
    r.bg.x_max ≤ frame_width ∧ r.bg.y_max ≤ frame_height ∧
    ∀ y ∈ r.ys, r.lineHeight + 5 ≤ y ∧
      (r.lineHeight + 5 ≤ frame_height - 5 → y ≤ frame_height - 5) := by
  unfold drawWrappedText at h
  dsimp only at h
  cases hw : wrapText tw (max 300 (x_max - x_min)) text with
  | nil => rw [hw] at h; simp at h
  | cons l0 rest =>
    rw [hw] at h
    rw [Option.some.injEq] at h
    subst h
    dsimp only
    refine ⟨?_, ?_, ?_, ?_, ?_⟩
    · exact le_max_left _ _
    · split_ifs <;> exact le_max_left _ _
    · exact min_le_left _ _
    · split_ifs <;> exact min_le_left _ _
    · intro y hy
      simp only [List.mem_map, List.mem_range] at hy
      obtain ⟨i, hi, rfl⟩ := hy
      constructor
      · exact le_max_left _ _
      · intro hlh
        exact max_le hlh (min_le_right _ _)

theorem C5_amended_footprint_witness :
    (⟨85, 185, 165, 220⟩ : Rect) =
      ⟨(100 : Int) - 15, (190 : Int) - 5, (100 : Int) + 50 + 15, (190 : Int) + 25 + 5⟩ ∧
    [(⟨85, 185, 165, 220⟩ : Rect)] = [] ++ [(⟨85, 185, 165, 220⟩ : Rect)] :=
  C5_amended_footprint (fun _ => 50) (fun _ => 20) 5 "ab".toList 100 200 200 1000 1000 []
    ⟨[['a', 'b']], 50, 20, 25, 100, 190, ⟨85, 185, 165, 220⟩,
      [⟨85, 185, 165, 220⟩], ⟨85, 160, 165, 195⟩, [195]⟩ (by decide)

theorem C3_amended_clamps_witness :
    (0 : Int) ≤ 0 ∧ (0 : Int) ≤ 5 ∧ (65 : Int) ≤ 640 ∧ (40 : Int) ≤ 480 ∧
    ∀ y ∈ [(30 : Int)], (20 : Int) + 5 ≤ y ∧
      ((20 : Int) + 5 ≤ 480 - 5 → y ≤ 480 - 5) :=
  C3_amended_clamps (fun _ => 50) (fun _ => 20) 5 "ab".toList 0 0 50 640 480 []
    ⟨[['a', 'b']], 50, 20, 25, 0, 30, ⟨-15, 25, 65, 60⟩,
      [⟨-15, 25, 65, 60⟩], ⟨0, 5, 65, 40⟩, [30]⟩ (by decide)

/-! ### Word-level analysis of the wrap loop -/

/-- A chunk with no whitespace characters at all. -/
def wsFree (l : List Char) : Prop := ∀ c ∈ l, c.isWhitespace = false

/-- A text whose only whitespace characters are plain spaces, so that
Python's `split(" ")` agrees with splitting on whitespace. -/
def spaceOnlyWS (l : List Char) : Prop := ∀ c ∈ l, c.isWhitespace = true → c = ' '

instance (l : List Char) : Decidable (wsFree l) := by unfold wsFree; infer_instance

instance (l : List Char) : Decidable (spaceOnlyWS l) := by unfold spaceOnlyWS; infer_instance

/-- A list of words fit to appear on a wrapped line: each nonempty and
free of whitespace. -/
def GoodWords (ws : List (List Char)) : Prop := ∀ u ∈ ws, u ≠ [] ∧ wsFree u

theorem dropWhile_eq_self_of_wsFree {l : List Char} (h : wsFree l) :
    l.dropWhile Char.isWhitespace = l := by
  cases l with
  | nil => rfl
  | cons c t =>
    rw [List.dropWhile_cons]
    simp [h c (by simp)]

theorem wsFree_reverse {l : List Char} (h : wsFree l) : wsFree l.reverse := by
  intro c hc
  exact h c (List.mem_reverse.mp hc)

theorem pyStrip_wsFree {l : List Char} (h : wsFree l) : pyStrip l = l := by
  unfold pyStrip
  rw [dropWhile_eq_self_of_wsFree h, dropWhile_eq_self_of_wsFree (wsFree_reverse h),
    List.reverse_reverse]

theorem pyStrip_space_cons {w : List Char} (h : wsFree w) : pyStrip (' ' :: w) = w := by
  unfold pyStrip
  rw [List.dropWhile_cons]
  simp only [show Char.isWhitespace ' ' = true from rfl, if_true]
  rw [dropWhile_eq_self_of_wsFree h, dropWhile_eq_self_of_wsFree (wsFree_reverse h),
    List.reverse_reverse]


theorem dropWhile_length_le (p : Char → Bool) (l : List Char) :
    (l.dropWhile p).length ≤ l.length := by
  induction l with
  | nil => simp
  | cons a t ih =>
    rw [List.dropWhile_cons]
    by_cases hp : p a = true
    · simp only [hp, if_true]
      exact Nat.le_succ_of_le ih
    · simp [hp]

theorem dropWhile_append_of_self {p : Char → Bool} {l m : List Char}
    (hl : l ≠ []) (h : l.dropWhile p = l) : (l ++ m).dropWhile p = l ++ m := by
  cases l with
  | nil => exact absurd rfl hl
  | cons a t =>
    have ha : p a = false := by
      by_contra hpa
      rw [List.dropWhile_cons] at h
      simp only [eq_true_of_ne_false hpa, if_true] at h
      have := dropWhile_length_le p t
      rw [h] at this
      simp at this
    rw [List.cons_append, List.dropWhile_cons, ha]
    simp

theorem joinSp_cons_of_ne {u : List Char} {ws : List (List Char)} (h : ws ≠ []) :
    joinSp (u :: ws) = u ++ ' ' :: joinSp ws := by
  cases ws with
  | nil => exact absurd rfl h
  | cons v rest => rfl

/-- The join of a nonempty list of good words is nonempty and has no
leading or trailing whitespace. -/
theorem joinSp_facts {ws : List (List Char)} (hg : GoodWords ws) (hne : ws ≠ []) :
    joinSp ws ≠ [] ∧
    (joinSp ws).dropWhile Char.isWhitespace = joinSp ws ∧
    (joinSp ws).reverse.dropWhile Char.isWhitespace = (joinSp ws).reverse := by
  induction ws with
  | nil => exact absurd rfl hne
  | cons u rest ih =>
    obtain ⟨hu, hufree⟩ := hg u (by simp)
    cases rest with
    | nil =>
      refine ⟨by simpa [joinSp] using hu, ?_, ?_⟩
      · simpa [joinSp] using dropWhile_eq_self_of_wsFree hufree
      · simpa [joinSp] using dropWhile_eq_self_of_wsFree (wsFree_reverse hufree)
    | cons v rest2 =>
      have hg2 : GoodWords (v :: rest2) := fun x hx => hg x (by simp [hx])
      obtain ⟨hJne, hJl, hJr⟩ := ih hg2 (by simp)
      rw [joinSp_cons_of_ne (by simp)]
      refine ⟨by simp [hu], ?_, ?_⟩
      · exact dropWhile_append_of_self hu (dropWhile_eq_self_of_wsFree hufree)
      · rw [List.reverse_append, List.reverse_cons, List.append_assoc]
        exact dropWhile_append_of_self (by simpa using hJne) hJr

theorem joinSp_append_single {ws : List (List Char)} (hne : ws ≠ []) (w : List Char) :
    joinSp (ws ++ [w]) = joinSp ws ++ ' ' :: w := by
  induction ws with
  | nil => exact absurd rfl hne
  | cons u rest ih =>
    cases rest with
    | nil => rfl
    | cons v rest2 =>
      rw [List.cons_append, joinSp_cons_of_ne (by simp), joinSp_cons_of_ne (by simp),
        ih (by simp)]
      simp

/-- `strip` is the identity on a join of good words followed by a space
and a further whitespace-free nonempty word: exactly the shape
`f"{current_line} {word}".strip()` takes mid-text. -/
theorem pyStrip_join_word {ws : List (List Char)} {w : List Char}
    (hg : GoodWords ws) (hne : ws ≠ []) (hw : wsFree w) (hwne : w ≠ []) :
    pyStrip (joinSp ws ++ ' ' :: w) = joinSp (ws ++ [w]) := by
  obtain ⟨hJne, hJl, hJr⟩ := joinSp_facts hg hne
  rw [joinSp_append_single hne]
  unfold pyStrip
  rw [dropWhile_append_of_self hJne hJl]
  rw [List.reverse_append, List.reverse_cons, List.append_assoc]
  rw [dropWhile_append_of_self (by simpa using hwne)
    (dropWhile_eq_self_of_wsFree (wsFree_reverse hw))]
  simp

/-- `strip` of a join of good words followed by a trailing space (the
`word = ""` case of the loop) gives back the join unchanged. -/
theorem pyStrip_join_trailing_space {ws : List (List Char)}
    (hg : GoodWords ws) (hne : ws ≠ []) :
    pyStrip (joinSp ws ++ ' ' :: []) = joinSp ws := by
  obtain ⟨hJne, hJl, hJr⟩ := joinSp_facts hg hne
  unfold pyStrip
  rw [dropWhile_append_of_self hJne hJl]
  rw [List.reverse_append]
  simp only [List.reverse_cons, List.reverse_nil, List.nil_append, List.singleton_append,
    List.dropWhile_cons]
  rw [show Char.isWhitespace ' ' = true from rfl]
  simp only [if_true]
  rw [hJr, List.reverse_reverse]

/-- Word-level shadow of `wrapStep`: the same branching, but the state
keeps each line as its list of words instead of the joined string. -/
def gStep (tw : List Char → Nat) (wrapWidth : Int)
    (g : List (List (List Char)) × List (List Char)) (w : List Char) :
    List (List (List Char)) × List (List Char) :=
  if w = [] then
    if wrapWidth < (tw (joinSp g.2) : Int) ∧ g.2 ≠ [] then (g.1 ++ [g.2], []) else g
  else
    if wrapWidth < (tw (joinSp (g.2 ++ [w])) : Int) ∧ g.2 ≠ [] then (g.1 ++ [g.2], [w])
    else (g.1, g.2 ++ [w])

/-- The wrap-loop state `s` is the character image of the word-level
state `g`. -/
def WrapSim (s : List (List Char) × List Char)
    (g : List (List (List Char)) × List (List Char)) : Prop :=
  s.1 = g.1.map joinSp ∧ s.2 = joinSp g.2 ∧ GoodWords g.2

theorem wrapStep_eq (tw : List Char → Nat) (W : Int)
    (s : List (List Char) × List Char) (w : List Char) :
    wrapStep tw W s w =
      if W < (tw (pyStrip (s.2 ++ ' ' :: w)) : Int) ∧ s.2 ≠ [] then (s.1 ++ [s.2], w)
      else (s.1, pyStrip (s.2 ++ ' ' :: w)) := rfl

theorem goodWords_append {ws : List (List Char)} {w : List Char}
    (hg : GoodWords ws) (hwne : w ≠ []) (hw : wsFree w) : GoodWords (ws ++ [w]) := by
  intro u hu
  rcases List.mem_append.mp hu with h | h
  · exact hg u h
  · rw [List.mem_singleton.mp h]
    exact ⟨hwne, hw⟩

/-- One loop iteration preserves the simulation. -/
theorem rel_step {tw : List Char → Nat} {W : Int}
    {s : List (List Char) × List Char}
    {g : List (List (List Char)) × List (List Char)} {w : List Char}
    (hw : wsFree w) (h : WrapSim s g) :
    WrapSim (wrapStep tw W s w) (gStep tw W g w) := by
  obtain ⟨h1, h2, hg⟩ := h
  rw [wrapStep_eq]
  by_cases hne : g.2 = []
  · have hs2 : s.2 = [] := by rw [h2, hne]; rfl
    rw [hs2]
    simp only [List.nil_append]
    rw [pyStrip_space_cons hw]
    rw [if_neg (by simp)]
    unfold gStep
    by_cases hwnil : w = []
    · subst hwnil
      rw [if_pos rfl, if_neg (by simp [hne])]
      exact ⟨h1, by rw [hne]; rfl, hg⟩
    · rw [if_neg hwnil, if_neg (by simp [hne]), hne]
      simp only [List.nil_append]
      refine ⟨h1, rfl, ?_⟩
      intro u hu
      rw [List.mem_singleton.mp hu]
      exact ⟨hwnil, hw⟩
  · have hs2 : joinSp g.2 ≠ [] := (joinSp_facts hg hne).1
    unfold gStep
    by_cases hwnil : w = []
    · subst hwnil
      rw [h2, pyStrip_join_trailing_space hg hne]
      by_cases hlt : W < (tw (joinSp g.2) : Int)
      · rw [if_pos ⟨hlt, hs2⟩, if_pos rfl, if_pos ⟨hlt, hne⟩]
        exact ⟨by rw [h1]; simp, rfl, by intro u hu; simp at hu⟩
      · rw [if_neg (by tauto), if_pos rfl, if_neg (by tauto)]
        exact ⟨h1, rfl, hg⟩
    · rw [h2, pyStrip_join_word hg hne hw hwnil, if_neg hwnil]
      by_cases hlt : W < (tw (joinSp (g.2 ++ [w])) : Int)
      · rw [if_pos ⟨hlt, hs2⟩, if_pos ⟨hlt, hne⟩]
        refine ⟨by rw [h1]; simp, rfl, ?_⟩
        intro u hu
        rw [List.mem_singleton.mp hu]
        exact ⟨hwnil, hw⟩
      · rw [if_neg (by tauto), if_neg (by tauto)]
        exact ⟨h1, rfl, goodWords_append hg hwnil hw⟩

/-- The whole loop preserves the simulation. -/
theorem rel_foldl {tw : List Char → Nat} {W : Int} (cs : List (List Char))
    (hcs : ∀ w ∈ cs, wsFree w) :
    ∀ s g, WrapSim s g →
      WrapSim (cs.foldl (wrapStep tw W) s) (cs.foldl (gStep tw W) g) := by
  induction cs with
  | nil => intro s g h; exact h
  | cons w rest ih =>
    intro s g h
    simp only [List.foldl_cons]
    exact ih (fun u hu => hcs u (by simp [hu])) _ _
      (rel_step (hcs w (by simp)) h)

/-- Invariant of the word-level loop: every flushed line and the
current line consist of good words, flushed lines are nonempty, and any
line holding two or more words measured within `wrapWidth` when it was
last extended. -/
def GInv (tw : List Char → Nat) (W : Int)
    (g : List (List (List Char)) × List (List Char)) : Prop :=
  (∀ p ∈ g.1, p ≠ [] ∧ GoodWords p ∧ (2 ≤ p.length → (tw (joinSp p) : Int) ≤ W)) ∧
  GoodWords g.2 ∧ (2 ≤ g.2.length → (tw (joinSp g.2) : Int) ≤ W)

theorem ginv_step {tw : List Char → Nat} {W : Int}
    {g : List (List (List Char)) × List (List Char)} {w : List Char}
    (hw : wsFree w) (h : GInv tw W g) : GInv tw W (gStep tw W g w) := by
  obtain ⟨hlines, hcur, hfit⟩ := h
  unfold gStep
  by_cases hwnil : w = []
  · subst hwnil
    rw [if_pos rfl]
    by_cases hc : W < (tw (joinSp g.2) : Int) ∧ g.2 ≠ []
    · rw [if_pos hc]
      refine ⟨?_, by intro u hu; simp at hu, by simp⟩
      intro p hp
      rcases List.mem_append.mp hp with h | h
      · exact hlines p h
      · rw [List.mem_singleton.mp h]
        exact ⟨hc.2, hcur, hfit⟩
    · rw [if_neg hc]
      exact ⟨hlines, hcur, hfit⟩
  · rw [if_neg hwnil]
    by_cases hc : W < (tw (joinSp (g.2 ++ [w])) : Int) ∧ g.2 ≠ []
    · rw [if_pos hc]
      refine ⟨?_, ?_, by simp⟩
      · intro p hp
        rcases List.mem_append.mp hp with h | h
        · exact hlines p h
        · rw [List.mem_singleton.mp h]
          exact ⟨hc.2, hcur, hfit⟩
      · intro u hu
        rw [List.mem_singleton.mp hu]
        exact ⟨hwnil, hw⟩
    · rw [if_neg hc]
      refine ⟨hlines, goodWords_append hcur hwnil hw, ?_⟩
      intro hlen
      by_cases hne : g.2 = []
      · rw [hne] at hlen
        simp at hlen
      · have : ¬ W < (tw (joinSp (g.2 ++ [w])) : Int) := fun hlt => hc ⟨hlt, hne⟩
        exact not_lt.mp this

theorem ginv_foldl {tw : List Char → Nat} {W : Int} (cs : List (List Char))
    (hcs : ∀ w ∈ cs, wsFree w) :
    ∀ g, GInv tw W g → GInv tw W (cs.foldl (gStep tw W) g) := by
  induction cs with
  | nil => intro g h; exact h
  | cons w rest ih =>
    intro g h
    simp only [List.foldl_cons]
    exact ih (fun u hu => hcs u (by simp [hu])) _ (ginv_step (hcs w (by simp)) h)

/-- The words held by a word-level state, flushed lines first. -/
def gFlat (g : List (List (List Char)) × List (List Char)) : List (List Char) :=
  g.1.flatten ++ g.2

theorem gFlat_step (tw : List Char → Nat) (W : Int)
    (g : List (List (List Char)) × List (List Char)) (w : List Char) :
    gFlat (gStep tw W g w) = gFlat g ++ (if w = [] then [] else [w]) := by
  unfold gStep gFlat
  by_cases hwnil : w = []
  · subst hwnil
    rw [if_pos rfl, if_pos rfl]
    by_cases hc : W < (tw (joinSp g.2) : Int) ∧ g.2 ≠ []
    · rw [if_pos hc]
      simp
    · rw [if_neg hc]
      simp
  · rw [if_neg hwnil, if_neg hwnil]
    by_cases hc : W < (tw (joinSp (g.2 ++ [w])) : Int) ∧ g.2 ≠ []
    · rw [if_pos hc]
      simp
    · rw [if_neg hc]
      simp

theorem gFlat_foldl (tw : List Char → Nat) (W : Int) (cs : List (List Char)) :
    ∀ g, gFlat (cs.foldl (gStep tw W) g) =
      gFlat g ++ cs.filter (fun w => !w.isEmpty) := by
  induction cs with
  | nil => intro g; simp
  | cons w rest ih =>
    intro g
    simp only [List.foldl_cons, List.filter_cons]
    rw [ih, gFlat_step]
    by_cases hwnil : w = []
    · subst hwnil
      simp
    · rw [if_neg hwnil]
      have : (!List.isEmpty w) = true := by
        cases w with
        | nil => exact absurd rfl hwnil
        | cons a t => rfl
      rw [this]
      simp

/-- Chunks of a space-only text contain no whitespace at all. -/
theorem pySplitSpace_wsFree {l : List Char} (h : spaceOnlyWS l) :
    ∀ w ∈ pySplitSpace l, wsFree w := by
  induction l with
  | nil =>
    intro w hw
    unfold pySplitSpace at hw
    rw [List.mem_singleton.mp hw]
    intro c hc
    simp at hc
  | cons c cs ih =>
    have hcs : spaceOnlyWS cs := fun d hd hws => h d (by simp [hd]) hws
    intro w hw
    unfold pySplitSpace at hw
    by_cases hsp : c = ' '
    · rw [if_pos hsp] at hw
      rcases List.mem_cons.mp hw with hh | hh
      · rw [hh]; intro d hd; simp at hd
      · exact ih hcs w hh
    · rw [if_neg hsp] at hw
      have hcws : c.isWhitespace = false := by
        by_contra hcc
        exact hsp (h c (by simp) (eq_true_of_ne_false hcc))
      cases hrec : pySplitSpace cs with
      | nil =>
        rw [hrec] at hw
        rw [List.mem_singleton.mp hw]
        intro d hd
        rw [List.mem_singleton.mp hd]
        exact hcws
      | cons w0 ws0 =>
        rw [hrec] at hw
        rcases List.mem_cons.mp hw with hh | hh
        · rw [hh]
          intro d hd
          rcases List.mem_cons.mp hd with hd1 | hd1
          · rw [hd1]; exact hcws
          · exact ih hcs w0 (by rw [hrec]; simp) d hd1
        · exact ih hcs w (by rw [hrec]; simp [hh])

/-- Shared structure theorem for the wrap loop on texts whose whitespace
is all plain spaces: the produced lines are exactly the joins of a
partition of the text's words into consecutive nonempty groups, and any
group of two or more words measured within `wrapWidth`. -/
theorem wrapText_partition (tw : List Char → Nat) (W : Int) (text : List Char)
    (h : spaceOnlyWS text) :
    ∃ P : List (List (List Char)),
      wrapText tw W text = P.map joinSp ∧
      P.flatten = pyWords text ∧
      ∀ p ∈ P, p ≠ [] ∧ GoodWords p ∧ (2 ≤ p.length → (tw (joinSp p) : Int) ≤ W) := by
  have hfree := pySplitSpace_wsFree h
  set cs := pySplitSpace text with hcs
  have hrel : WrapSim (cs.foldl (wrapStep tw W) ([], []))
      (cs.foldl (gStep tw W) ([], [])) :=
    rel_foldl cs hfree ([], []) ([], [])
      ⟨rfl, rfl, by intro u hu; simp at hu⟩
  have hinv : GInv tw W (cs.foldl (gStep tw W) ([], [])) :=
    ginv_foldl cs hfree ([], [])
      ⟨by intro p hp; simp at hp, by intro u hu; simp at hu, by simp [joinSp]⟩
  have hflat : gFlat (cs.foldl (gStep tw W) ([], [])) = pyWords text := by
    rw [gFlat_foldl]
    unfold gFlat pyWords
    simp [hcs]
  set gfin := cs.foldl (gStep tw W) ([], []) with hgfin
  obtain ⟨h1, h2, hgood⟩ := hrel
  obtain ⟨hlines, hcur, hfit⟩ := hinv
  by_cases hne : gfin.2 = []
  · refine ⟨gfin.1, ?_, ?_, ?_⟩
    · unfold wrapText
      rw [← hcs]
      rw [if_neg (by rw [h2, hne]; simp [joinSp])]
      exact h1
    · rw [← hflat]
      unfold gFlat
      rw [hne]
      simp
    · intro p hp
      exact hlines p hp
  · refine ⟨gfin.1 ++ [gfin.2], ?_, ?_, ?_⟩
    · unfold wrapText
      rw [← hcs]
      rw [if_pos (by rw [h2]; exact (joinSp_facts hgood hne).1)]
      rw [h1, h2]
      simp
    · rw [← hflat]
      unfold gFlat
      simp
    · intro p hp
      rcases List.mem_append.mp hp with hh | hh
      · exact hlines p hh
      · rw [List.mem_singleton.mp hh]
        exact ⟨hne, hgood, hfit⟩

theorem joinSp_append {a b : List (List Char)} (ha : a ≠ []) (hb : b ≠ []) :
    joinSp (a ++ b) = joinSp a ++ ' ' :: joinSp b := by
  induction a with
  | nil => exact absurd rfl ha
  | cons u rest ih =>
    cases rest with
    | nil =>
      cases b with
      | nil => exact absurd rfl hb
      | cons v b2 => rfl
    | cons v rest2 =>
      rw [List.cons_append, joinSp_cons_of_ne (by simp), joinSp_cons_of_ne (by simp),
        ih (by simp) ]
      simp

theorem joinSp_map_flatten {P : List (List (List Char))} (hP : ∀ p ∈ P, p ≠ []) :
    joinSp (P.map joinSp) = joinSp P.flatten := by
  induction P with
  | nil => rfl
  | cons p rest ih =>
    cases rest with
    | nil => simp [joinSp]
    | cons q rest2 =>
      have hq : q ≠ [] := hP q (by simp)
      have hflat : (q :: rest2).flatten ≠ [] := by
        simp only [List.flatten_cons]
        intro hcontra
        exact hq (List.append_eq_nil.mp hcontra).1
      have hrest : ∀ r ∈ q :: rest2, r ≠ [] := fun r hr => hP r (by simp [hr])
      have lhs1 : joinSp (List.map joinSp (p :: q :: rest2)) =
          joinSp p ++ ' ' :: joinSp (List.map joinSp (q :: rest2)) := by
        rw [List.map_cons, joinSp_cons_of_ne (by simp)]
      have rhs1 : joinSp ((p :: q :: rest2).flatten) =
          joinSp p ++ ' ' :: joinSp ((q :: rest2).flatten) := by
        rw [List.flatten_cons, joinSp_append (hP p (by simp)) hflat]
      rw [lhs1, rhs1, ih hrest]

/-- Claim C10 (amended): for texts whose whitespace is all plain
spaces, joining the wrapped lines back with single spaces gives exactly
the text's space-separated words joined by single spaces: no word is
lost, duplicated or reordered. -/
theorem C10_amended_wrap_words (tw : List Char → Nat) (W : Int) (text : List Char)
    (h : spaceOnlyWS text) :
    joinSp (wrapText tw W text) = joinSp (pyWords text) := by
  obtain ⟨P, hP1, hP2, hP3⟩ := wrapText_partition tw W text h
  rw [hP1, joinSp_map_flatten (fun p hp => (hP3 p hp).1), hP2]

theorem C10_amended_wrap_words_witness :
    joinSp (wrapText (twAdd fun _ => 1) 300 "ab cd".toList) =
      joinSp (pyWords "ab cd".toList) :=
  C10_amended_wrap_words (twAdd fun _ => 1) 300 "ab cd".toList (by decide)

/-- Modelled from the spec: split the text on whitespace (any
whitespace character, as `str.split()` with no argument would) into
words; the spec's "whitespace-normalized input" is the nonempty such
words joined by single spaces. -/
def splitAnyWS : List Char → List (List Char)
  | [] => [[]]
  | c :: cs =>
    if c.isWhitespace then [] :: splitAnyWS cs
    else
      match splitAnyWS cs with
      | [] => [[c]]
      | w :: ws => (c :: w) :: ws

/-- Modelled from the spec: the words of the text under
whitespace-splitting. -/
def wordsWS (l : List Char) : List (List Char) :=
  (splitAnyWS l).filter (fun w => !w.isEmpty)

/-- Claim C10 counterexample: on the text `"a<TAB>b"` the wrap loop
returns the single line `"a<TAB>b"` (its splitter is `split(" ")`, not
whitespace splitting), so the lines joined by single spaces differ from
the whitespace-normalized input `"a b"`. -/
theorem C10_counterexample :
    joinSp (wrapText (twAdd fun _ => 1) 300 ['a', '\t', 'b']) = ['a', '\t', 'b'] ∧
    joinSp (wordsWS ['a', '\t', 'b']) = ['a', ' ', 'b'] ∧
    (['a', '\t', 'b'] : List Char) ≠ ['a', ' ', 'b'] := by
  exact ⟨by decide, by decide, by decide⟩

theorem twAdd_joinSp_mono (cw : Char → Nat) (a b : List (List Char)) :
    (twAdd cw (joinSp a) : Int) ≤ twAdd cw (joinSp (a ++ b)) := by
  by_cases hb : b = []
  · subst hb
    simp
  · by_cases ha : a = []
    · subst ha
      have h0 : twAdd cw (joinSp ([] : List (List Char))) = 0 := rfl
      rw [List.nil_append, h0]
      exact_mod_cast Nat.zero_le _
    · rw [joinSp_append ha hb]
      have : twAdd cw (joinSp a) ≤ twAdd cw (joinSp a ++ ' ' :: joinSp b) := by
        unfold twAdd
        simp only [List.map_append, List.sum_append, List.map_cons, List.sum_cons]
        omega
      exact_mod_cast this

/-- If the whole remaining text measures within `wrapWidth`, the
word-level loop never flushes: the current line just accumulates all
the words. -/
theorem gfold_one_line (cw : Char → Nat) (W : Int) :
    ∀ (cs : List (List Char)) (ws : List (List Char)),
      (∀ w ∈ cs, wsFree w) →
      (twAdd cw (joinSp (ws ++ cs.filter (fun w => !w.isEmpty))) : Int) ≤ W →
      cs.foldl (gStep (twAdd cw) W) ([], ws) =
        ([], ws ++ cs.filter (fun w => !w.isEmpty)) := by
  intro cs
  induction cs with
  | nil =>
    intro ws _ _
    simp
  | cons w rest ih =>
    intro ws hfree hle
    simp only [List.foldl_cons]
    by_cases hwnil : w = []
    · subst hwnil
      have hfilter : List.filter (fun w => !w.isEmpty) ([] :: rest) =
          List.filter (fun w => !w.isEmpty) rest := by simp
      rw [hfilter] at hle
      have hstep : gStep (twAdd cw) W ([], ws) [] = ([], ws) := by
        unfold gStep
        rw [if_pos rfl, if_neg ?_]
        intro ⟨hlt, _⟩
        exact absurd (le_trans (twAdd_joinSp_mono cw ws
          (rest.filter (fun w => !w.isEmpty))) hle) (not_le.mpr hlt)
      rw [hstep, ih ws (fun u hu => hfree u (by simp [hu])) hle, hfilter]
    · have hwne : (!List.isEmpty w) = true := by
        cases w with
        | nil => exact absurd rfl hwnil
        | cons a t => rfl
      have hfilter : List.filter (fun w => !w.isEmpty) (w :: rest) =
          w :: List.filter (fun w => !w.isEmpty) rest := by
        rw [List.filter_cons, hwne]
        simp
      rw [hfilter] at hle
      have hle2 : (twAdd cw (joinSp ((ws ++ [w]) ++
          rest.filter (fun w => !w.isEmpty))) : Int) ≤ W := by
        rw [List.append_assoc]
        simpa using hle
      have hstep : gStep (twAdd cw) W ([], ws) w = ([], ws ++ [w]) := by
        unfold gStep
        rw [if_neg hwnil, if_neg ?_]
        intro ⟨hlt, _⟩
        exact absurd (le_trans (twAdd_joinSp_mono cw (ws ++ [w])
          (rest.filter (fun w => !w.isEmpty))) hle2) (not_le.mpr hlt)
      rw [hstep, ih (ws ++ [w]) (fun u hu => hfree u (by simp [hu])) hle2, hfilter,
        List.append_assoc]
      simp

/-- A text (with space-only whitespace) whose normalized form measures
within `wrapWidth` wraps to exactly that one line. -/
theorem wrapText_one_line (cw : Char → Nat) (W : Int) (text : List Char)
    (h : spaceOnlyWS text) (hne : pyWords text ≠ [])
    (hfits : (twAdd cw (joinSp (pyWords text)) : Int) ≤ W) :
    wrapText (twAdd cw) W text = [joinSp (pyWords text)] := by
  have hfree := pySplitSpace_wsFree h
  have hfold : (pySplitSpace text).foldl (gStep (twAdd cw) W) ([], []) =
      ([], pyWords text) := by
    have := gfold_one_line cw W (pySplitSpace text) [] hfree
      (by simpa [pyWords] using hfits)
    simpa [pyWords] using this
  have hrel : WrapSim ((pySplitSpace text).foldl (wrapStep (twAdd cw) W) ([], []))
      ((pySplitSpace text).foldl (gStep (twAdd cw) W) ([], [])) :=
    rel_foldl (pySplitSpace text) hfree ([], []) ([], [])
      ⟨rfl, rfl, by intro u hu; simp at hu⟩
  rw [hfold] at hrel
  obtain ⟨h1, h2, hgood⟩ := hrel
  unfold wrapText
  rw [if_pos (by rw [h2]; exact (joinSp_facts hgood hne).1), h1, h2]
  simp

/-- Claim C7 (amended): over the additive text-measurement model and
texts whose whitespace is all plain spaces (the splitter is
`text.split(" ")`, so other whitespace is not a word boundary), with
`wrapWidth = max 300 (x_max - x_min)`:
every produced line either measures within `wrapWidth` or is a single
input word kept whole; the lines are the joins of a partition of the
text's words into consecutive nonempty groups (no word is ever split,
truncated or dropped); and a text whose normalized form fits on one
line wraps to exactly that line. -/
theorem C7_amended_wrap (cw : Char → Nat) (x_min x_max : Int) (text : List Char)
    (h : spaceOnlyWS text) :
    (∀ l ∈ wrapText (twAdd cw) (max 300 (x_max - x_min)) text,
        (twAdd cw l : Int) ≤ max 300 (x_max - x_min) ∨ l ∈ pyWords text) ∧
    (∃ P : List (List (List Char)),
        wrapText (twAdd cw) (max 300 (x_max - x_min)) text = P.map joinSp ∧
        P.flatten = pyWords text ∧ ∀ p ∈ P, p ≠ []) ∧
    (pyWords text ≠ [] →
      (twAdd cw (joinSp (pyWords text)) : Int) ≤ max 300 (x_max - x_min) →
      wrapText (twAdd cw) (max 300 (x_max - x_min)) text =
        [joinSp (pyWords text)]) := by
  obtain ⟨P, hP1, hP2, hP3⟩ :=
    wrapText_partition (twAdd cw) (max 300 (x_max - x_min)) text h
  refine ⟨?_, ⟨P, hP1, hP2, fun p hp => (hP3 p hp).1⟩, ?_⟩
  · intro l hl
    rw [hP1] at hl
    obtain ⟨p, hpP, hpl⟩ := List.mem_map.mp hl
    obtain ⟨hpne, hpgood, hpfit⟩ := hP3 p hpP
    cases p with
    | nil => exact absurd rfl hpne
    | cons u rest =>
      cases rest with
      | nil =>
        right
        rw [← hP2]
        rw [← hpl]
        exact List.mem_flatten.mpr ⟨[u], hpP, by simp [joinSp]⟩
      | cons v rest2 =>
        left
        rw [← hpl]
        exact hpfit (by simp)
  · intro hne hfits
    exact wrapText_one_line cw (max 300 (x_max - x_min)) text h hne hfits

/-- Claim C7 counterexample: on `"a<TAB>b"` with every character 200px
wide and `wrapWidth = 300`, the wrap emits the line `"a<TAB>b"`, which
measures 600px over the 300px budget yet is not a single
whitespace-delimited word - the loop splits on `" "` only, not on
whitespace. -/
theorem C7_counterexample :
    wrapText (twAdd fun _ => 200) 300 ['a', '\t', 'b'] = [['a', '\t', 'b']] ∧
    (300 : Int) < (twAdd (fun _ => 200) ['a', '\t', 'b'] : Int) ∧
    ['a', '\t', 'b'] ∉ wordsWS ['a', '\t', 'b'] := by
  exact ⟨by decide, by decide, by decide⟩

theorem C7_amended_wrap_witness :
    wrapText (twAdd fun _ => 10) (max 300 (40 - 0)) "ab cd".toList =
      [joinSp (pyWords "ab cd".toList)] :=
  (C7_amended_wrap (fun _ => 10) 0 40 "ab cd".toList (by decide)).2.2
    (by decide) (by decide)

/-! ### `core/video_processor.py`: caption-mode labelling of detections -/

/-- The operation mode of the processor. -/
inductive Mode
  | detect
  | caption
deriving DecidableEq

/-- A detection dict: normalized box coordinates plus the `label` entry
`_process_frame` writes into it. -/
structure DetObj where
  x_min : Rat
  y_min : Rat
  x_max : Rat
  y_max : Rat
  label : String
deriving DecidableEq

/-- Python `int(...)` on a rational: truncation toward zero. -/
def pyInt (q : Rat) : Int := q.num.tdiv q.den

/-- The crop box `_process_frame` computes for a detection on a
`width x height` frame: `int(obj[k] * dimension)` for each corner. -/
structure CropBox where
  left : Int
  top : Int
  right : Int
  bottom : Int
deriving DecidableEq

def cropOf (width height : Int) (obj : DetObj) : CropBox :=
  ⟨pyInt (obj.x_min * (width : Rat)), pyInt (obj.y_min * (height : Rat)),
   pyInt (obj.x_max * (width : Rat)), pyInt (obj.y_max * (height : Rat))⟩

/-- Width of the PIL crop `pil_image.crop(...)`: the box extent,
floored at zero. -/
def cropW (c : CropBox) : Int := max 0 (c.right - c.left)

/-- Height of the PIL crop. -/
def cropH (c : CropBox) : Int := max 0 (c.bottom - c.top)

/-- The per-detection labelling step of `_process_frame` (lines 99-117
of `video_processor.py`): `label` starts as the current prompt; in
caption mode, when `cropped_image.size[0] > 0 and
cropped_image.size[1] > 0`, the caption capability runs on the crop and
its result becomes the label.  The second component counts the caption
invocations made for this detection. -/
def processObj (mode : Mode) (prompt : String) (width height : Int)
    (cap : CropBox → String) (obj : DetObj) : DetObj × Nat :=
  let label := prompt
  if mode = Mode.caption then
    let c := cropOf width height obj
    if 0 < cropW c ∧ 0 < cropH c then
      ({ obj with label := cap c }, 1)
    else
      ({ obj with label := label }, 0)
  else ({ obj with label := label }, 0)

/-- The loop over `detected_objects` building `processed_objects`. -/
def processDetections (mode : Mode) (prompt : String) (width height : Int)
    (cap : CropBox → String) (dets : List DetObj) : List (DetObj × Nat) :=
  dets.map (processObj mode prompt width height cap)

theorem pyInt_intCast (n : Int) : pyInt ((n : Rat)) = n := by
  unfold pyInt
  rw [Rat.num_intCast, Rat.den_intCast]
  simp

theorem cropOf_degenerate_sample :
    cropOf 100 100 ⟨1/2, 1/4, 1/2, 3/4, ""⟩ = ⟨50, 25, 50, 75⟩ := by
  unfold cropOf
  dsimp only
  rw [show ((1 : Rat)/2 * ((100 : Int) : Rat)) = ((50 : Int) : Rat) from by norm_num,
    show ((1 : Rat)/4 * ((100 : Int) : Rat)) = ((25 : Int) : Rat) from by norm_num,
    show ((3 : Rat)/4 * ((100 : Int) : Rat)) = ((75 : Int) : Rat) from by norm_num,
    pyInt_intCast, pyInt_intCast, pyInt_intCast]

/-- Claim C2 counterexample: a detection whose box crops to a
zero-width region on a 100x100 frame, in caption mode with prompt
`"person"`: caption is not invoked, but the resulting label is
`"person"`, the current prompt - not the empty string the claim
requires. -/
theorem C2_degenerate_label_counterexample :
    processObj Mode.caption "person" 100 100 (fun _ => "cat")
        ⟨1/2, 1/4, 1/2, 3/4, ""⟩ =
      (⟨1/2, 1/4, 1/2, 3/4, "person"⟩, 0) ∧
    "person" ≠ "" := by
  constructor
  · simp only [processObj]
    simp only [if_true]
    rw [cropOf_degenerate_sample, if_neg (by decide)]
  · intro hcontra
    simp at hcontra

/-- Claim C2 (amended): in caption mode, a detection with a
positive-size crop gets captioned exactly once and the caption becomes
its label; a detection with a degenerate crop is never captioned and
its label stays the current prompt; and the frame loop applies this
independently to each detection. -/
theorem C2_amended_caption (prompt : String) (width height : Int)
    (cap : CropBox → String) (obj : DetObj) :
    (¬(0 < cropW (cropOf width height obj) ∧ 0 < cropH (cropOf width height obj)) →
      processObj Mode.caption prompt width height cap obj =
        ({ obj with label := prompt }, 0)) ∧
    ((0 < cropW (cropOf width height obj) ∧ 0 < cropH (cropOf width height obj)) →
      processObj Mode.caption prompt width height cap obj =
        ({ obj with label := cap (cropOf width height obj) }, 1)) ∧
    (∀ dets : List DetObj,
      processDetections Mode.caption prompt width height cap dets =
        dets.map (processObj Mode.caption prompt width height cap)) := by
  refine ⟨?_, ?_, fun dets => rfl⟩
  · intro hc
    simp only [processObj, if_true]
    rw [if_neg hc]
  · intro hc
    simp only [processObj, if_true]
    rw [if_pos hc]

theorem C2_amended_caption_witness :
    processObj Mode.caption "person" 100 100 (fun _ => "cat")
        ⟨1/2, 1/4, 1/2, 3/4, ""⟩ =
      ({ (⟨1/2, 1/4, 1/2, 3/4, ""⟩ : DetObj) with label := "person" }, 0) :=
  (C2_amended_caption "person" 100 100 (fun _ => "cat")
    ⟨1/2, 1/4, 1/2, 3/4, ""⟩).1
    (by rw [cropOf_degenerate_sample]; decide)

/-! ### `core/detector.py`: error-suppressing capability wrappers -/

/-- `Detector.detect_objects`: the model call either raises (error
branch of the `try`) or returns a result dict which may carry an
`"objects"` entry (`result.get("objects", [])`). -/
def detect_objects {Img : Type} (model : Img → String → Except String (Option (List DetObj)))
    (image : Img) (prompt : String) : List DetObj :=
  match model image prompt with
  | Except.error _ => []
  | Except.ok r => r.getD []

/-- `Detector.caption_image`: ditto with `result.get("caption", "")`. -/
def caption_image {Img : Type} (model : Img → Except String (Option String))
    (image : Img) : String :=
  match model image with
  | Except.error _ => ""
  | Except.ok r => r.getD ""

/-- Claim C9: whenever the underlying model call errors, the wrapper
returns the empty object list (detection) or the empty string
(captioning): the cycle degrades to zero detections and the wrappers
always return normally, so the failure cannot terminate the frame
loop. -/
theorem C9_error_suppression {Img : Type}
    (dmodel : Img → String → Except String (Option (List DetObj)))
    (cmodel : Img → Except String (Option String))
    (image : Img) (prompt : String) (e e2 : String)
    (hd : dmodel image prompt = Except.error e)
    (hc : cmodel image = Except.error e2) :
    detect_objects dmodel image prompt = [] ∧ caption_image cmodel image = "" := by
  unfold detect_objects caption_image
  rw [hd, hc]
  exact ⟨rfl, rfl⟩

theorem C9_error_suppression_witness :
    detect_objects (fun (_ : Unit) (_ : String) => Except.error "boom") () "person" = [] ∧
    caption_image (fun (_ : Unit) => Except.error "boom") () = "" :=
  C9_error_suppression (fun _ _ => Except.error "boom")
    (fun _ => Except.error "boom") () "person" "boom" "boom" rfl rfl

/-! ### `core/video_processor.py`: inference gate, stale carry and FPS
bookkeeping -/

/-- The processor state touched by `_process_frame`/`_calculate_fps`:
`frame_count`, `latest_objects`, `fps`, `start_time`. -/
structure ProcState where
  frameCount : Nat
  latestObjects : List DetObj
  fps : Rat
  startTime : Rat
deriving DecidableEq

/-- `_calculate_fps` (lines 134-143 of `video_processor.py`): increment
the counter; once it reaches the poll rate, recompute `fps` when the
elapsed wall time is positive, then reset the counter and the window
start regardless. -/
def calcFps (pollRate : Nat) (now : Rat) (st : ProcState) : ProcState :=
  let c := st.frameCount + 1
  if pollRate ≤ c then
    { st with
      frameCount := 0
      fps := if 0 < now - st.startTime then (c : Rat) / (now - st.startTime) else st.fps
      startTime := now }
  else { st with frameCount := c }

/-- The inference gate and detection carry of `_process_frame` over a
run of frames.  Each input is the labelled list inference would produce
on that frame paired with the wall clock `_calculate_fps` reads; each
output is whether inference ran and the detection list handed to the
renderer. -/
def procOutputs (frameSkip pollRate : Nat) :
    List (List DetObj × Rat) → ProcState → List (Bool × List DetObj)
  | [], _ => []
  | (newObjects, now) :: rest, st =>
    let ran := st.frameCount % frameSkip == 0
    let st1 := if ran then { st with latestObjects := newObjects } else st
    (ran, st1.latestObjects) ::
      procOutputs frameSkip pollRate rest (calcFps pollRate now st1)

theorem calcFps_latestObjects (pollRate : Nat) (now : Rat) (st : ProcState) :
    (calcFps pollRate now st).latestObjects = st.latestObjects := by
  unfold calcFps
  dsimp only
  split_ifs <;> rfl

theorem calcFps_frameCount (pollRate : Nat) (now : Rat) (st : ProcState)
    (h : st.frameCount < pollRate) :
    (calcFps pollRate now st).frameCount = (st.frameCount + 1) % pollRate := by
  unfold calcFps
  by_cases hc : pollRate ≤ st.frameCount + 1
  · rw [if_pos hc]
    have heq : st.frameCount + 1 = pollRate := by omega
    rw [heq, Nat.mod_self]
  · rw [if_neg hc]
    have heq : (st.frameCount + 1) % pollRate = st.frameCount + 1 :=
      Nat.mod_eq_of_lt (by omega)
    rw [heq]

theorem procOutputs_length (frameSkip pollRate : Nat) :
    ∀ (inputs : List (List DetObj × Rat)) (st : ProcState),
      (procOutputs frameSkip pollRate inputs st).length = inputs.length := by
  intro inputs
  induction inputs with
  | nil => intro st; rfl
  | cons x rest ih =>
    intro st
    cases x with
    | mk d t =>
      simp only [procOutputs, List.length_cons, ih]

theorem procOutputs_ran (frameSkip pollRate : Nat) (hp : 0 < pollRate) :
    ∀ (inputs : List (List DetObj × Rat)) (st : ProcState) (i : Nat),
      i < inputs.length → st.frameCount < pollRate →
      ((procOutputs frameSkip pollRate inputs st).getD i (false, [])).1 =
        ((st.frameCount + i) % pollRate % frameSkip == 0) := by
  intro inputs
  induction inputs with
  | nil =>
    intro st i hi _
    simp at hi
  | cons x rest ih =>
    intro st i hi hc
    cases x with
    | mk d t =>
      cases i with
      | zero =>
        simp only [procOutputs, List.getD_cons_zero]
        rw [Nat.add_zero, Nat.mod_eq_of_lt hc]
      | succ j =>
        simp only [procOutputs, List.getD_cons_succ]
        have hst1 : (if (st.frameCount % frameSkip == 0) = true
            then { st with latestObjects := d } else st).frameCount = st.frameCount := by
          split_ifs <;> rfl
        rw [ih _ j (by simpa using hi) ?hlt]
        case hlt =>
          rw [calcFps_frameCount _ _ _ (by rw [hst1]; exact hc), hst1]
          exact Nat.mod_lt _ hp
        rw [calcFps_frameCount _ _ _ (by rw [hst1]; exact hc), hst1,
          Nat.mod_add_mod,
          show st.frameCount + 1 + j = st.frameCount + (j + 1) from by omega]

theorem procOutputs_carry (frameSkip pollRate : Nat) :
    ∀ (inputs : List (List DetObj × Rat)) (st : ProcState) (i : Nat),
      i + 1 < inputs.length →
      ((procOutputs frameSkip pollRate inputs st).getD (i + 1) (false, [])).1 = false →
      ((procOutputs frameSkip pollRate inputs st).getD (i + 1) (false, [])).2 =
        ((procOutputs frameSkip pollRate inputs st).getD i (false, [])).2 := by
  intro inputs
  induction inputs with
  | nil =>
    intro st i hi _
    simp at hi
  | cons x rest ih =>
    intro st i hi hran
    cases x with
    | mk d t =>
      cases i with
      | zero =>
        cases rest with
        | nil => simp at hi
        | cons y rest2 =>
          cases y with
          | mk d2 t2 =>
            simp only [procOutputs, List.getD_cons_succ, List.getD_cons_zero] at hran ⊢
            rw [if_neg (by rw [hran]; simp), calcFps_latestObjects]
      | succ j =>
        simp only [procOutputs, List.getD_cons_succ] at hran ⊢
        exact ih _ j (by simpa using hi) hran

/-- Claim C4 (amended): the inference gate tests `frame_count`, the
same counter the FPS bookkeeping resets every `pollRate` frames, so
inference runs exactly on frame indices `i` with
`(i % pollRate) % frameSkip = 0`; when `frameSkip` divides `pollRate`
(as with the shipped settings 5 and 10) those are exactly the multiples
of `frameSkip`.  On every skipped frame the renderer receives the
previous frame's detection list unchanged. -/
theorem C4_amended_gate (frameSkip pollRate : Nat) (_hs : 0 < frameSkip)
    (hp : 0 < pollRate) (hdvd : frameSkip ∣ pollRate)
    (inputs : List (List DetObj × Rat)) (st0 : ProcState)
    (h0 : st0.frameCount = 0) :
    (procOutputs frameSkip pollRate inputs st0).length = inputs.length ∧
    (∀ i, i < inputs.length →
      (((procOutputs frameSkip pollRate inputs st0).getD i (false, [])).1 = true ↔
        i % frameSkip = 0)) ∧
    (∀ i, i + 1 < inputs.length →
      ((procOutputs frameSkip pollRate inputs st0).getD (i + 1) (false, [])).1 = false →
      ((procOutputs frameSkip pollRate inputs st0).getD (i + 1) (false, [])).2 =
        ((procOutputs frameSkip pollRate inputs st0).getD i (false, [])).2) := by
  refine ⟨procOutputs_length _ _ _ _, ?_,
    fun i hi hr => procOutputs_carry _ _ _ _ i hi hr⟩
  intro i hi
  rw [procOutputs_ran frameSkip pollRate hp inputs st0 i hi (by rw [h0]; exact hp)]
  rw [h0, Nat.zero_add, Nat.mod_mod_of_dvd i hdvd]
  simp

/-- Claim C4 counterexample: with `frameSkipInterval = 3` and the
shipped poll rate 10, frame index 10 runs inference even though 10 is
not a multiple of 3: the gate's counter was reset to 0 by the FPS
bookkeeping after frame 9. -/
theorem C4_gate_counterexample :
    ((procOutputs 3 10 (List.replicate 11 (([] : List DetObj), (0 : Rat))) ⟨0, [], 0, 0⟩).getD 10
        (false, [])).1 = true ∧
    ¬ 10 % 3 = 0 := by
  exact ⟨by decide, by decide⟩

theorem C4_amended_gate_witness :
    (procOutputs 5 10 (List.replicate 6 (([] : List DetObj), (0 : Rat))) ⟨0, [], 0, 0⟩).length =
      (List.replicate 6 (([] : List DetObj), (0 : Rat))).length ∧
    (∀ i, i < (List.replicate 6 (([] : List DetObj), (0 : Rat))).length →
      (((procOutputs 5 10 (List.replicate 6 (([] : List DetObj), (0 : Rat))) ⟨0, [], 0, 0⟩).getD i
          (false, [])).1 = true ↔ i % 5 = 0)) ∧
    (∀ i, i + 1 < (List.replicate 6 (([] : List DetObj), (0 : Rat))).length →
      ((procOutputs 5 10 (List.replicate 6 (([] : List DetObj), (0 : Rat))) ⟨0, [], 0, 0⟩).getD (i + 1)
          (false, [])).1 = false →
      ((procOutputs 5 10 (List.replicate 6 (([] : List DetObj), (0 : Rat))) ⟨0, [], 0, 0⟩).getD (i + 1)
          (false, [])).2 =
        ((procOutputs 5 10 (List.replicate 6 (([] : List DetObj), (0 : Rat))) ⟨0, [], 0, 0⟩).getD i
          (false, [])).2) :=
  C4_amended_gate 5 10 (by decide) (by decide) (by decide)
    (List.replicate 6 (([] : List DetObj), (0 : Rat))) ⟨0, [], 0, 0⟩ rfl

/-- As long as the counter stays below the poll rate, `_calculate_fps`
only increments it. -/
theorem calcFps_foldl_no_trigger (pollRate : Nat) :
    ∀ (l : List Rat) (st : ProcState), st.frameCount + l.length < pollRate →
      l.foldl (fun s τ => calcFps pollRate τ s) st =
        { st with frameCount := st.frameCount + l.length } := by
  intro l
  induction l with
  | nil =>
    intro st h
    simp
  | cons τ rest ih =>
    intro st h
    simp only [List.foldl_cons, List.length_cons] at h ⊢
    have hstep : calcFps pollRate τ st = { st with frameCount := st.frameCount + 1 } := by
      unfold calcFps
      dsimp only
      rw [if_neg (by omega)]
    rw [hstep, ih _ (by dsimp only; omega)]
    have harith : st.frameCount + 1 + rest.length = st.frameCount + (rest.length + 1) := by
      omega
    dsimp only
    rw [harith]

/-- Claim C8: starting a window with counter 0, after exactly
`pollRate` calls to `_calculate_fps` whose last call reads wall clock
`startTime + t` with `t > 0`, the stored FPS is `pollRate / t`, the
counter is 0 again and the window start has moved to that reading;
while for any `k < pollRate` calls the stored FPS and window start are
untouched and the counter reads `k` - the FPS exposed between resets is
the last computed value, not recomputed per frame. -/
theorem C8_fps_window (pollRate : Nat) (hp : 0 < pollRate) (st0 : ProcState)
    (h0 : st0.frameCount = 0) (ts : List Rat) (hlen : ts.length = pollRate)
    (t : Rat) (ht : 0 < t) (hlast : ts.getLast? = some (st0.startTime + t)) :
    ((ts.foldl (fun s τ => calcFps pollRate τ s) st0).fps = (pollRate : Rat) / t ∧
     (ts.foldl (fun s τ => calcFps pollRate τ s) st0).frameCount = 0 ∧
     (ts.foldl (fun s τ => calcFps pollRate τ s) st0).startTime = st0.startTime + t) ∧
    (∀ k, k < pollRate →
      ((ts.take k).foldl (fun s τ => calcFps pollRate τ s) st0).fps = st0.fps ∧
      ((ts.take k).foldl (fun s τ => calcFps pollRate τ s) st0).frameCount = k ∧
      ((ts.take k).foldl (fun s τ => calcFps pollRate τ s) st0).startTime =
        st0.startTime) := by
  have hne : ts ≠ [] := by
    intro hcon
    rw [hcon] at hlen
    simp at hlen
    omega
  constructor
  · have hts : ts.dropLast ++ [ts.getLast hne] = ts := List.dropLast_append_getLast hne
    have hlast2 : ts.getLast hne = st0.startTime + t := by
      rw [List.getLast?_eq_getLast ts hne] at hlast
      exact Option.some.inj hlast
    have hinitlen : ts.dropLast.length = pollRate - 1 := by
      rw [List.length_dropLast, hlen]
    have hfinal : ts.foldl (fun s τ => calcFps pollRate τ s) st0 =
        { st0 with
          frameCount := 0
          fps := (pollRate : Rat) / t
          startTime := st0.startTime + t } := by
      conv_lhs => rw [← hts]
      rw [List.foldl_append,
        calcFps_foldl_no_trigger pollRate ts.dropLast st0 (by omega)]
      simp only [List.foldl_cons, List.foldl_nil]
      unfold calcFps
      dsimp only
      rw [if_pos (by omega), hlast2]
      have harith : st0.startTime + t - st0.startTime = t := by ring
      rw [harith, if_pos ht]
      have hc : st0.frameCount + ts.dropLast.length + 1 = pollRate := by omega
      rw [hc]
    rw [hfinal]
    exact ⟨rfl, rfl, rfl⟩
  · intro k hk
    have htk : (ts.take k).length = k := by
      rw [List.length_take, hlen]
      omega
    rw [calcFps_foldl_no_trigger pollRate (ts.take k) st0 (by omega)]
    exact ⟨rfl, by dsimp only; omega, rfl⟩

theorem C8_fps_window_witness :
    (([(4 : Rat), 9].foldl (fun s τ => calcFps 2 τ s) ⟨0, [], 37, 4⟩).fps =
        ((2 : Nat) : Rat) / 5 ∧
     ([(4 : Rat), 9].foldl (fun s τ => calcFps 2 τ s) ⟨0, [], 37, 4⟩).frameCount = 0 ∧
     ([(4 : Rat), 9].foldl (fun s τ => calcFps 2 τ s) ⟨0, [], 37, 4⟩).startTime =
       (⟨0, [], 37, 4⟩ : ProcState).startTime + 5) ∧
    (∀ k, k < 2 →
      (([(4 : Rat), 9].take k).foldl (fun s τ => calcFps 2 τ s) ⟨0, [], 37, 4⟩).fps =
        (⟨0, [], 37, 4⟩ : ProcState).fps ∧
      (([(4 : Rat), 9].take k).foldl (fun s τ => calcFps 2 τ s)
          ⟨0, [], 37, 4⟩).frameCount = k ∧
      (([(4 : Rat), 9].take k).foldl (fun s τ => calcFps 2 τ s) ⟨0, [], 37, 4⟩).startTime =
        (⟨0, [], 37, 4⟩ : ProcState).startTime) :=
  C8_fps_window 2 (by decide) ⟨0, [], 37, 4⟩ rfl [4, 9] rfl 5 (by norm_num)
    (by rw [show (⟨0, [], 37, 4⟩ : ProcState).startTime + (5 : Rat) = 9 from by norm_num]; rfl)
